import Mathlib

/-!
Verification of the value-passing condition variable `Condition` from
`src/alicebot/utils.py` (class `Condition`, an asyncio-style condition
variable whose `notify` hands a value to the waiters that `wait` returns).

The embedding models:
- a future in the waiter queue (`Fut`): pending, fulfilled with a value
  (`fut.set_result(value)`), or cancelled;
- the condition state (`Condition`): the lock bit of the underlying
  `asyncio.Lock`, the `_waiters` deque as a list of (future id, future
  state) pairs in arrival order, and a fresh-id counter for futures
  created by `self._loop.create_future()`;
- `notify` / `notify_all` as pure functions on that state;
- `wait` as a function of the initial state and a schedule (`WaitSched`)
  describing what the cooperative scheduler did at the two suspension
  points of the source: the `await fut` (outcome: resolved with a value,
  or a cancellation signal, possibly with a concurrently attached value),
  plus an arbitrary state transformer for the activity of other tasks
  during the suspension, and the number of cancellation signals received
  during the mandatory lock re-acquisition loop before `acquire`
  finally succeeded (the loop in the source retries until success);
- `wait_for` as the fuel-bounded loop of the source, with the predicate
  results given per evaluation (the predicate reads guarded application
  state, which the embedding abstracts as an oracle indexed by the
  evaluation number).
-/

namespace AliceBot

/-- State of one waiter's future: `pending` until `set_result` or
cancellation; `fut.done()` is true for the other two states. -/
inductive Fut (α : Type) where
  | pending
  | fulfilled (v : α)
  | cancelled
deriving DecidableEq

variable {α : Type}

/-- `fut.done()` from asyncio: true once the future is fulfilled or cancelled. -/
def futDone : Fut α → Bool
  | .pending => false
  | _ => true

/-- The `Condition` state: the lock bit of the underlying `asyncio.Lock`,
the `_waiters` deque (futures with their creation ids, arrival order),
and the next fresh future id. -/
structure Condition (α : Type) where
  locked : Bool
  waiters : List (Nat × Fut α)
  nextId : Nat
deriving DecidableEq

/-- The usage error of the source: `RuntimeError("cannot ... on un-acquired lock")`. -/
inductive CondError where
  | usage (msg : String)
deriving DecidableEq

/-- The scan loop of `Condition.notify`: walk the waiter deque in FIFO
order with counter `idx`; stop as soon as `idx >= n`; skip futures that
are already done without counting them; set the result of each pending
future to `v`, counting it. -/
def notifyGo (v : α) (n : Int) : Int → List (Nat × Fut α) → List (Nat × Fut α)
  | _, [] => []
  | idx, w :: rest =>
    if n ≤ idx then w :: rest
    else if futDone w.2 then w :: notifyGo v n idx rest
    else (w.1, Fut.fulfilled v) :: notifyGo v n (idx + 1) rest

/-- `Condition.notify(value, n)`: raises the usage error when the lock is
not held, otherwise fulfills up to `n` pending waiters in FIFO order.
Futures are never removed from the deque by `notify`. -/
def Condition.notify (c : Condition α) (v : α) (n : Int) :
    Except CondError (Condition α) :=
  if c.locked = false then .error (.usage "cannot notify on un-acquired lock")
  else .ok { c with waiters := notifyGo v n 0 c.waiters }

/-- `Condition.notify_all(value)`: `self.notify(value, len(self._waiters))`. -/
def Condition.notify_all (c : Condition α) (v : α) :
    Except CondError (Condition α) :=
  c.notify v (Int.ofNat c.waiters.length)

/-- Outcome of `await fut` in `Condition.wait`: either the future was
fulfilled with a value and the task resumed normally, or a cancellation
signal was delivered at this suspension point (raising `CancelledError`);
in the tie case `attached = some v` a notifier had concurrently attached
value `v` to the future, which the source never reads on this path. -/
inductive AwaitOutcome (α : Type) where
  | resolved (v : α)
  | cancelled (attached : Option α)
deriving DecidableEq

/-- A schedule for one `wait` call: what the rest of the system did while
this task was suspended. `env` is the (arbitrary) activity of other
tasks on the condition state during the `await fut` suspension;
`outcome` is how that await ended; `reacquireCancels` is the number of
`CancelledError`s delivered during the re-acquire loop before
`self.acquire()` finally succeeded (the source retries until success). -/
structure WaitSched (α : Type) where
  env : Condition α → Condition α
  outcome : AwaitOutcome α
  reacquireCancels : Nat

/-- `self._waiters.remove(fut)`: remove the first entry with the given
future id. (In the source the future is always present: only the task
that created it removes it; absence would raise, which cannot happen.) -/
def removeId (fid : Nat) : List (Nat × Fut α) → List (Nat × Fut α)
  | [] => []
  | w :: rest => if w.1 = fid then rest else w :: removeId fid rest

/-- Result of a `wait` call: the delivered value, the usage error
(`RuntimeError` for an un-acquired lock), or `CancelledError`. -/
inductive WaitResult (α : Type) where
  | ok (v : α)
  | usageError
  | cancelledError
deriving DecidableEq

/-- `Condition.wait()`: check the lock, release it, create and enqueue a
fresh future, suspend (`await fut`, during which `s.env` is the other
tasks' activity), remove the future from the deque on resumption, then
unconditionally re-acquire the lock, retrying across cancellation
signals; finally re-raise `CancelledError` if one was seen at either
suspension point, else return the delivered value. -/
def Condition.wait (c : Condition α) (s : WaitSched α) :
    WaitResult α × Condition α :=
  if c.locked = false then (.usageError, c)
  else
    let fid := c.nextId
    let c1 : Condition α :=
      { locked := false
        waiters := c.waiters ++ [(fid, Fut.pending)]
        nextId := c.nextId + 1 }
    let c2 := s.env c1
    let c3 : Condition α := { c2 with waiters := removeId fid c2.waiters }
    let cancelledAtAwait :=
      match s.outcome with
      | .resolved _ => false
      | .cancelled _ => true
    let c4 : Condition α := { c3 with locked := true }
    if cancelledAtAwait || decide (0 < s.reacquireCancels) then
      (.cancelledError, c4)
    else
      match s.outcome with
      | .resolved v => (.ok v, c4)
      | .cancelled _ => (.cancelledError, c4)

/-- Result of a `wait_for` call: the boolean returned by the loop, or the
error propagated from an inner `wait`. -/
inductive WaitForResult where
  | ret (b : Bool)
  | usageError
  | cancelledError
deriving DecidableEq

/-- The loop of `Condition.wait_for`: evaluate the predicate; while it is
false, `await self.wait()` (discarding the value) and re-evaluate; return
the last predicate result. Errors from the inner `wait` propagate.
`preds i` is the result of the `i`-th predicate evaluation, `ss i` the
schedule of the `i`-th inner `wait`; `fuel` bounds the number of
iterations of the source's unbounded loop (`none` = still looping). -/
def waitForAux (preds : Nat → Bool) (ss : Nat → WaitSched α) :
    Nat → Condition α → Nat → Option (WaitForResult × Condition α)
  | 0, _, _ => none
  | fuel + 1, c, i =>
    if preds i = true then some (.ret (preds i), c)
    else
      match c.wait (ss i) with
      | (.ok _, c1) => waitForAux preds ss fuel c1 (i + 1)
      | (.usageError, c1) => some (.usageError, c1)
      | (.cancelledError, c1) => some (.cancelledError, c1)

/-- `Condition.wait_for(predicate)` as the fuel-bounded loop starting at
evaluation 0. Note the source checks the lock only inside `wait`, never
in `wait_for` itself. -/
def Condition.wait_for (c : Condition α) (fuel : Nat) (preds : Nat → Bool)
    (ss : Nat → WaitSched α) : Option (WaitForResult × Condition α) :=
  waitForAux preds ss fuel c 0

/-- Number of pending (not done) futures in the deque. -/
def pendingCount (ws : List (Nat × Fut α)) : Nat :=
  ws.countP (fun w => !futDone w.2)

/-- Fulfill a single waiter entry with `v` if it is pending, else leave it. -/
def fillF (v : α) : Nat × Fut α → Nat × Fut α
  | (i, Fut.pending) => (i, Fut.fulfilled v)
  | w => w

/-- Well-formedness: every future id in the deque is below the fresh-id
counter (true of every reachable state: ids are allocated from the
counter). -/
def Condition.WF (c : Condition α) : Prop :=
  ∀ w ∈ c.waiters, w.1 < c.nextId

/-! Helper lemmas about the notify scan, the drain, and the counters. -/

theorem notifyGo_of_le (v : α) {n idx : Int} (h : n ≤ idx)
    (ws : List (Nat × Fut α)) : notifyGo v n idx ws = ws := by
  cases ws with
  | nil => rfl
  | cons w rest => simp [notifyGo, h]

theorem notifyGo_map_fst (v : α) (n : Int) (idx : Int)
    (ws : List (Nat × Fut α)) :
    (notifyGo v n idx ws).map Prod.fst = ws.map Prod.fst := by
  induction ws generalizing idx with
  | nil => rfl
  | cons w rest ih =>
    by_cases h : n ≤ idx
    · simp [notifyGo, h]
    · by_cases hd : futDone w.2
      · simp [notifyGo, h, hd, ih]
      · simp [notifyGo, h, hd, ih]

theorem notifyGo_length (v : α) (n : Int) (idx : Int)
    (ws : List (Nat × Fut α)) :
    (notifyGo v n idx ws).length = ws.length := by
  have h := notifyGo_map_fst v n idx ws
  have h2 : ((notifyGo v n idx ws).map Prod.fst).length =
      (ws.map Prod.fst).length := by rw [h]
  simpa using h2

theorem notifyGo_cons_done (v : α) {n idx : Int} (h : ¬n ≤ idx)
    {w : Nat × Fut α} (hd : futDone w.2 = true)
    (rest : List (Nat × Fut α)) :
    notifyGo v n idx (w :: rest) = w :: notifyGo v n idx rest := by
  simp [notifyGo, h, hd]

theorem notifyGo_cons_pending (v : α) {n idx : Int} (h : ¬n ≤ idx)
    (i : Nat) (rest : List (Nat × Fut α)) :
    notifyGo v n idx ((i, Fut.pending) :: rest) =
      (i, Fut.fulfilled v) :: notifyGo v n (idx + 1) rest := by
  simp [notifyGo, h, futDone]

theorem pendingCount_cons_done {w : Nat × Fut α} (hd : futDone w.2 = true)
    (l : List (Nat × Fut α)) : pendingCount (w :: l) = pendingCount l := by
  simp [pendingCount, List.countP_cons, hd]

theorem pendingCount_cons_pending (i : Nat) (l : List (Nat × Fut α)) :
    pendingCount ((i, Fut.pending) :: l) = pendingCount l + 1 := by
  simp [pendingCount, List.countP_cons, futDone]

theorem pendingCount_notifyGo (v : α) (n : Int) (idx : Int)
    (ws : List (Nat × Fut α)) :
    pendingCount (notifyGo v n idx ws) =
      pendingCount ws - min (n - idx).toNat (pendingCount ws) := by
  induction ws generalizing idx with
  | nil => simp [notifyGo, pendingCount]
  | cons w rest ih =>
    by_cases h : n ≤ idx
    · have h0 : (n - idx).toNat = 0 := by omega
      simp [notifyGo_of_le v h, h0]
    · obtain ⟨i, f⟩ := w
      cases f with
      | pending =>
        rw [notifyGo_cons_pending v h,
          pendingCount_cons_done (by rfl : futDone (i, Fut.fulfilled v).2 = true),
          pendingCount_cons_pending, ih (idx + 1)]
        omega
      | fulfilled x =>
        rw [notifyGo_cons_done v h (by rfl),
          pendingCount_cons_done (by rfl : futDone (i, Fut.fulfilled x).2 = true),
          pendingCount_cons_done (by rfl : futDone (i, Fut.fulfilled x).2 = true),
          ih idx]
      | cancelled =>
        rw [notifyGo_cons_done v h (by rfl),
          pendingCount_cons_done (by rfl : futDone (i, Fut.cancelled).2 = true),
          pendingCount_cons_done (by rfl : futDone (i, Fut.cancelled).2 = true),
          ih idx]

theorem notifyGo_forall₂ (v : α) (n : Int) (idx : Int)
    (ws : List (Nat × Fut α)) :
    List.Forall₂
      (fun a b => b = a ∨ (futDone a.2 = false ∧ b = (a.1, Fut.fulfilled v)))
      ws (notifyGo v n idx ws) := by
  induction ws generalizing idx with
  | nil => exact List.Forall₂.nil
  | cons w rest ih =>
    by_cases h : n ≤ idx
    · rw [notifyGo_of_le v h]
      exact (List.forall₂_same).2 (fun w _ => Or.inl rfl)
    · obtain ⟨i, f⟩ := w
      cases f with
      | pending =>
        rw [notifyGo_cons_pending v h]
        exact List.Forall₂.cons (Or.inr ⟨rfl, rfl⟩) (ih (idx + 1))
      | fulfilled x =>
        rw [notifyGo_cons_done v h (by rfl)]
        exact List.Forall₂.cons (Or.inl rfl) (ih idx)
      | cancelled =>
        rw [notifyGo_cons_done v h (by rfl)]
        exact List.Forall₂.cons (Or.inl rfl) (ih idx)

theorem fillF_of_done (v : α) {w : Nat × Fut α} (h : futDone w.2 = true) :
    fillF v w = w := by
  obtain ⟨i, f⟩ := w
  cases f with
  | pending => simp [futDone] at h
  | fulfilled x => rfl
  | cancelled => rfl

theorem map_fillF_of_no_pending (v : α) (ws : List (Nat × Fut α))
    (h : pendingCount ws = 0) : ws.map (fillF v) = ws := by
  induction ws with
  | nil => rfl
  | cons w rest ih =>
    simp only [pendingCount, List.countP_cons] at h
    have hd : futDone w.2 = true := by
      by_contra hd
      simp only [Bool.not_eq_true] at hd
      simp [hd] at h
    have hrest : pendingCount rest = 0 := by
      simp only [pendingCount]
      omega
    simp [fillF_of_done v hd, ih hrest]

theorem notifyGo_fill_of_le (v : α) (n : Int) (idx : Int)
    (ws : List (Nat × Fut α)) (h : pendingCount ws ≤ (n - idx).toNat) :
    notifyGo v n idx ws = ws.map (fillF v) := by
  induction ws generalizing idx with
  | nil => rfl
  | cons w rest ih =>
    by_cases hle : n ≤ idx
    · have h0 : pendingCount (w :: rest) = 0 := by omega
      rw [notifyGo_of_le v hle, map_fillF_of_no_pending v _ h0]
    · by_cases hd : futDone w.2
      · have hrest : pendingCount rest ≤ (n - idx).toNat := by
          simp only [pendingCount, List.countP_cons, hd] at h ⊢
          simpa using h
        simp only [notifyGo, if_neg hle, hd, if_true, ih idx hrest,
          List.map_cons, fillF_of_done v hd]
      · have hrest : pendingCount rest ≤ (n - (idx + 1)).toNat := by
          simp only [pendingCount, List.countP_cons, hd] at h ⊢
          simp only [Bool.not_false, if_true] at h
          omega
        obtain ⟨i, f⟩ := w
        cases f with
        | pending =>
          simp only [notifyGo, if_neg hle, futDone, Bool.false_eq_true,
            if_false, List.map_cons, fillF, ih (idx + 1) hrest]
        | fulfilled x => simp [futDone] at hd
        | cancelled => simp [futDone] at hd

theorem removeId_append {fid : Nat} (f : Fut α)
    (pre post : List (Nat × Fut α)) (hpre : ∀ q ∈ pre, q.1 ≠ fid) :
    removeId fid (pre ++ (fid, f) :: post) = pre ++ post := by
  induction pre with
  | nil => simp [removeId]
  | cons q pre ih =>
    have hq : q.1 ≠ fid := hpre q (List.mem_cons_self q pre)
    simp only [List.cons_append, removeId, if_neg hq, List.append_eq]
    rw [ih (fun r hr => hpre r (List.mem_cons_of_mem q hr))]

theorem notifyGo_one_first_pending (v : α) (pre : List (Nat × Fut α))
    (hpre : ∀ q ∈ pre, futDone q.2 = true) (i : Nat)
    (post : List (Nat × Fut α)) :
    notifyGo v 1 0 (pre ++ (i, Fut.pending) :: post) =
      pre ++ (i, Fut.fulfilled v) :: post := by
  induction pre with
  | nil =>
    rw [List.nil_append, List.nil_append,
      notifyGo_cons_pending v (by omega), notifyGo_of_le v (by omega)]
  | cons q pre ih =>
    have hq : futDone q.2 = true := hpre q (List.mem_cons_self q pre)
    rw [List.cons_append, notifyGo_cons_done v (by omega) hq,
      ih (fun r hr => hpre r (List.mem_cons_of_mem q hr)), List.cons_append]

theorem notifyGo_one_later_unchanged (v : α) (ws : List (Nat × Fut α))
    (i j : Nat) (p : Nat × Fut α) (hij : i < j) (hi : ws[i]? = some p)
    (hp : futDone p.2 = false) :
    (notifyGo v 1 0 ws)[j]? = ws[j]? := by
  induction ws generalizing i j with
  | nil => simp at hi
  | cons w rest ih =>
    obtain ⟨k, f⟩ := w
    cases f with
    | pending =>
      rw [notifyGo_cons_pending v (by omega), notifyGo_of_le v (by omega)]
      obtain ⟨j2, rfl⟩ : ∃ j2, j = j2 + 1 := ⟨j - 1, by omega⟩
      simp
    | fulfilled x =>
      rw [notifyGo_cons_done v (by omega) (by rfl)]
      obtain ⟨i2, rfl⟩ : ∃ i2, i = i2 + 1 := by
        rcases i with _ | i2
        · simp only [List.getElem?_cons_zero, Option.some.injEq] at hi
          rw [← hi] at hp
          simp [futDone] at hp
        · exact ⟨i2, rfl⟩
      obtain ⟨j2, rfl⟩ : ∃ j2, j = j2 + 1 := ⟨j - 1, by omega⟩
      simp only [List.getElem?_cons_succ]
      exact ih i2 j2 (by omega) (by simpa using hi)
    | cancelled =>
      rw [notifyGo_cons_done v (by omega) (by rfl)]
      obtain ⟨i2, rfl⟩ : ∃ i2, i = i2 + 1 := by
        rcases i with _ | i2
        · simp only [List.getElem?_cons_zero, Option.some.injEq] at hi
          rw [← hi] at hp
          simp [futDone] at hp
        · exact ⟨i2, rfl⟩
      obtain ⟨j2, rfl⟩ : ∃ j2, j = j2 + 1 := ⟨j - 1, by omega⟩
      simp only [List.getElem?_cons_succ]
      exact ih i2 j2 (by omega) (by simpa using hi)

/-! Theorems for the claims. -/

/-- C1: every `wait` call that returns by a non-usage-error path — a
delivered value or a raised cancellation error — leaves the caller
holding the Mutex (`locked = true` in the final state); and when a
cancellation signal arrives during the mandatory re-acquire loop,
acquisition is retried until it succeeds (the model's loop always ends
with the lock held) and only then is the cancellation re-raised: the
result is the cancellation error, with the lock held. -/
theorem wait_lock_held_on_return (c : Condition α) (s : WaitSched α)
    (h : (c.wait s).1 ≠ WaitResult.usageError) :
    (c.wait s).2.locked = true ∧
    (0 < s.reacquireCancels → (c.wait s).1 = WaitResult.cancelledError) := by
  cases hcl : c.locked with
  | false =>
    exact absurd (show (c.wait s).1 = .usageError by
      simp [Condition.wait, hcl]) h
  | true =>
    rcases s with ⟨env, outcome, k⟩
    cases outcome with
    | resolved v =>
      by_cases hk : 0 < k
      · constructor <;> simp [Condition.wait, hcl, hk]
      · constructor
        · simp [Condition.wait, hcl, hk]
        · exact fun hk2 => absurd hk2 hk
    | cancelled att =>
      constructor <;> simp [Condition.wait, hcl]

theorem wait_lock_held_on_return_witness :
    ((⟨true, [], 0⟩ : Condition Nat).wait ⟨id, .resolved 7, 1⟩).2.locked = true ∧
    (0 < (⟨id, .resolved 7, 1⟩ : WaitSched Nat).reacquireCancels →
      ((⟨true, [], 0⟩ : Condition Nat).wait ⟨id, .resolved 7, 1⟩).1 =
        WaitResult.cancelledError) :=
  wait_lock_held_on_return ⟨true, [], 0⟩ ⟨id, .resolved 7, 1⟩ (by decide)

/-- C5: calling `wait`, `notify` or `notify_all` while the Mutex is not
held fails with the usage error (`RuntimeError` on the un-acquired lock)
and leaves the state untouched: `wait` returns the state it was given
unchanged (same `locked()`, same queue), and `notify`/`notify_all`
return only the error, producing no new state. -/
theorem unlocked_calls_fail (c : Condition α) (s : WaitSched α) (v : α)
    (n : Int) (h : c.locked = false) :
    c.wait s = (.usageError, c) ∧
    c.notify v n = .error (.usage "cannot notify on un-acquired lock") ∧
    c.notify_all v = .error (.usage "cannot notify on un-acquired lock") := by
  refine ⟨?_, ?_, ?_⟩ <;>
    simp [Condition.wait, Condition.notify, Condition.notify_all, h]

theorem unlocked_calls_fail_witness :
    (⟨false, [(0, Fut.pending)], 1⟩ : Condition Nat).wait
        ⟨id, .resolved 0, 0⟩ =
      (.usageError, ⟨false, [(0, Fut.pending)], 1⟩) ∧
    (⟨false, [(0, Fut.pending)], 1⟩ : Condition Nat).notify 3 1 =
      .error (.usage "cannot notify on un-acquired lock") ∧
    (⟨false, [(0, Fut.pending)], 1⟩ : Condition Nat).notify_all 3 =
      .error (.usage "cannot notify on un-acquired lock") :=
  unlocked_calls_fail ⟨false, [(0, Fut.pending)], 1⟩ ⟨id, .resolved 0, 0⟩ 3 1 rfl

/-- C9: when the await of a queued waiter ends with a cancellation signal
in the same scheduling step in which a value was concurrently attached to
its future, cancellation takes precedence: `wait` raises the cancellation
error and the attached value is discarded, never returned to the caller. -/
theorem wait_cancellation_wins (c : Condition α) (s : WaitSched α) (v : α)
    (hl : c.locked = true) (hout : s.outcome = .cancelled (some v)) :
    (c.wait s).1 = WaitResult.cancelledError := by
  simp [Condition.wait, hl, hout]

theorem wait_cancellation_wins_witness :
    ((⟨true, [], 0⟩ : Condition Nat).wait
      ⟨id, .cancelled (some 9), 0⟩).1 = WaitResult.cancelledError :=
  wait_cancellation_wins ⟨true, [], 0⟩ ⟨id, .cancelled (some 9), 0⟩ 9 rfl rfl

/-- C10: for every `n ≤ 0`, `notify(value, n)` while holding the Mutex
fulfills no waiters and returns with the queue contents and `locked()`
exactly unchanged; the spec's precondition `n ≥ 1` is not enforced and
no error is raised: the scan's `idx >= n` break fires immediately. -/
theorem notify_nonpositive_noop (c : Condition α) (v : α) (n : Int)
    (hn : n ≤ 0) (hl : c.locked = true) :
    c.notify v n = .ok c := by
  obtain ⟨lk, ws, ni⟩ := c
  simp only [Condition.locked] at hl
  subst hl
  have h0 : notifyGo v n 0 ws = ws := notifyGo_of_le v (by omega) ws
  simp [Condition.notify, h0]

theorem notify_nonpositive_noop_witness :
    (⟨true, [(0, Fut.pending)], 1⟩ : Condition Nat).notify 5 0 =
      .ok ⟨true, [(0, Fut.pending)], 1⟩ :=
  notify_nonpositive_noop ⟨true, [(0, Fut.pending)], 1⟩ 5 0 (by decide) rfl

/-- C2: `notify(value, n)` with `n ≥ 1` while holding the Mutex succeeds
and fulfills exactly `min(n, pending_count)` currently-pending waiters:
the pending count drops by exactly that amount, every queue entry is
either untouched or goes from pending to fulfilled-with-`value`, the
lock and id counter are unchanged, and on an empty queue the call is a
no-op, not an error. -/
theorem notify_fulfills_min (c : Condition α) (v : α) (n : Int)
    (_hn : 1 ≤ n) (hl : c.locked = true) :
    ∃ c2, c.notify v n = .ok c2 ∧
      c2.locked = true ∧ c2.nextId = c.nextId ∧
      pendingCount c2.waiters =
        pendingCount c.waiters - min n.toNat (pendingCount c.waiters) ∧
      List.Forall₂
        (fun a b => b = a ∨ (futDone a.2 = false ∧ b = (a.1, Fut.fulfilled v)))
        c.waiters c2.waiters ∧
      (c.waiters = [] → c2 = c) := by
  refine ⟨{ c with waiters := notifyGo v n 0 c.waiters }, ?_, hl, rfl, ?_, ?_, ?_⟩
  · simp [Condition.notify, hl]
  · have h := pendingCount_notifyGo v n 0 c.waiters
    simpa using h
  · exact notifyGo_forall₂ v n 0 c.waiters
  · intro h
    have h2 : notifyGo v n 0 c.waiters = c.waiters := by simp [h, notifyGo]
    rw [h2]

theorem notify_fulfills_min_witness :
    ∃ c2, (⟨true, [(0, Fut.pending), (1, Fut.cancelled), (2, Fut.pending)], 3⟩ :
        Condition Nat).notify 4 2 = .ok c2 ∧
      c2.locked = true ∧
      c2.nextId = (⟨true, [(0, Fut.pending), (1, Fut.cancelled),
        (2, Fut.pending)], 3⟩ : Condition Nat).nextId ∧
      pendingCount c2.waiters =
        pendingCount ([(0, Fut.pending), (1, Fut.cancelled), (2, Fut.pending)] :
            List (Nat × Fut Nat)) -
          min (Int.toNat 2)
            (pendingCount ([(0, Fut.pending), (1, Fut.cancelled),
              (2, Fut.pending)] : List (Nat × Fut Nat))) ∧
      List.Forall₂
        (fun a b => b = a ∨ (futDone a.2 = false ∧ b = (a.1, Fut.fulfilled 4)))
        [(0, Fut.pending), (1, Fut.cancelled), (2, Fut.pending)] c2.waiters ∧
      (([(0, Fut.pending), (1, Fut.cancelled), (2, Fut.pending)] :
          List (Nat × Fut Nat)) = [] →
        c2 = ⟨true, [(0, Fut.pending), (1, Fut.cancelled), (2, Fut.pending)], 3⟩) :=
  notify_fulfills_min
    ⟨true, [(0, Fut.pending), (1, Fut.cancelled), (2, Fut.pending)], 3⟩
    4 2 (by decide) rfl

/-- C3: `notify_all(value)`, which the source implements as
`notify(value, len(self._waiters))`, is equivalent to
`notify(value, pending_count)` on every queue state (including queues
holding already-fulfilled or cancelled but not yet drained futures), and
while the lock is held it succeeds and delivers the identical value to
every currently pending waiter — each entry is written exactly once by
the positional map — fulfilling no other waiter and changing nothing
else. -/
theorem notify_all_eq_notify_pending (c : Condition α) (v : α) :
    c.notify_all v = c.notify v (Int.ofNat (pendingCount c.waiters)) ∧
    (c.locked = true → ∃ c2, c.notify_all v = .ok c2 ∧
      c2.waiters = c.waiters.map (fillF v) ∧ c2.locked = true ∧
      c2.nextId = c.nextId) := by
  have hfill1 : notifyGo v (c.waiters.length : Int) 0 c.waiters =
      c.waiters.map (fillF v) := by
    apply notifyGo_fill_of_le
    have h : pendingCount c.waiters ≤ c.waiters.length :=
      List.countP_le_length (fun (w : Nat × Fut α) => !futDone w.2)
    omega
  have hfill2 : notifyGo v (pendingCount c.waiters : Int) 0 c.waiters =
      c.waiters.map (fillF v) := by
    apply notifyGo_fill_of_le
    omega
  constructor
  · by_cases hl : c.locked = false
    · simp [Condition.notify_all, Condition.notify, hl]
    · simp [Condition.notify_all, Condition.notify, hl, hfill1, hfill2]
  · intro hl
    refine ⟨{ c with waiters := c.waiters.map (fillF v) }, ?_, rfl, hl, rfl⟩
    simp [Condition.notify_all, Condition.notify, hl, hfill1]

theorem notify_all_eq_notify_pending_witness :
    (⟨true, [(0, Fut.fulfilled 1), (1, Fut.pending), (2, Fut.pending)], 3⟩ :
        Condition Nat).notify_all 8 =
      (⟨true, [(0, Fut.fulfilled 1), (1, Fut.pending), (2, Fut.pending)], 3⟩ :
        Condition Nat).notify 8
        (Int.ofNat (pendingCount
          [(0, Fut.fulfilled 1), (1, Fut.pending), (2, Fut.pending)])) ∧
    ∃ c2, (⟨true, [(0, Fut.fulfilled 1), (1, Fut.pending), (2, Fut.pending)], 3⟩ :
        Condition Nat).notify_all 8 = .ok c2 ∧
      c2.waiters = ([(0, Fut.fulfilled 1), (1, Fut.pending),
        (2, Fut.pending)] : List (Nat × Fut Nat)).map (fillF 8) ∧
      c2.locked = true ∧
      c2.nextId = (⟨true, [(0, Fut.fulfilled 1), (1, Fut.pending),
        (2, Fut.pending)], 3⟩ : Condition Nat).nextId :=
  ⟨(notify_all_eq_notify_pending
      ⟨true, [(0, Fut.fulfilled 1), (1, Fut.pending), (2, Fut.pending)], 3⟩ 8).1,
    (notify_all_eq_notify_pending
      ⟨true, [(0, Fut.fulfilled 1), (1, Fut.pending), (2, Fut.pending)], 3⟩ 8).2 rfl⟩

/-- C4 counterexample: the claim quantifies over every pair of waiters A
enqueued before B with A still pending. In the queue
`[(0, pending), (1, pending), (2, pending)]` take A = the waiter at
position 1 and B = the waiter at position 2: A was enqueued strictly
before B and is pending, yet `notify(5, 1)` fulfills the earlier waiter
at position 0 and leaves A pending — it does not fulfill A. -/
theorem notify_one_not_fifo_as_stated :
    (⟨true, [(0, Fut.pending), (1, Fut.pending), (2, Fut.pending)], 3⟩ :
        Condition Nat).waiters[1]? = some (1, Fut.pending) ∧
    (⟨true, [(0, Fut.pending), (1, Fut.pending), (2, Fut.pending)], 3⟩ :
        Condition Nat).notify 5 1 =
      .ok ⟨true, [(0, Fut.fulfilled 5), (1, Fut.pending), (2, Fut.pending)], 3⟩ :=
  ⟨rfl, rfl⟩

/-- C4 (amended): `notify(value, 1)` fulfills the earliest currently
pending waiter: when A is the first pending entry of the queue (all
entries before it are done), A is fulfilled with the value and every
other entry is untouched; and `notify(value, 1)` never fulfills a waiter
B situated strictly after any pending entry — B's queue slot is
unchanged. -/
theorem notify_one_fifo (c : Condition α) (v : α) (hl : c.locked = true) :
    (∀ pre i post, c.waiters = pre ++ (i, Fut.pending) :: post →
      (∀ q ∈ pre, futDone q.2 = true) →
      c.notify v 1 =
        .ok { c with waiters := pre ++ (i, Fut.fulfilled v) :: post }) ∧
    (∀ (i j : Nat) (p : Nat × Fut α), i < j → c.waiters[i]? = some p →
      futDone p.2 = false →
      ∃ c2, c.notify v 1 = .ok c2 ∧ c2.waiters[j]? = c.waiters[j]?) := by
  constructor
  · intro pre i post hws hpre
    simp [Condition.notify, hl, hws, notifyGo_one_first_pending v pre hpre i post]
  · intro i j p hij hi hp
    refine ⟨{ c with waiters := notifyGo v 1 0 c.waiters },
      by simp [Condition.notify, hl], ?_⟩
    exact notifyGo_one_later_unchanged v c.waiters i j p hij hi hp

theorem notify_one_fifo_witness :
    (⟨true, [(0, Fut.cancelled), (1, Fut.pending), (2, Fut.pending)], 3⟩ :
        Condition Nat).notify 5 1 =
      .ok ⟨true, [(0, Fut.cancelled), (1, Fut.fulfilled 5), (2, Fut.pending)], 3⟩ :=
  (notify_one_fifo
      ⟨true, [(0, Fut.cancelled), (1, Fut.pending), (2, Fut.pending)], 3⟩
      5 rfl).1
    [(0, Fut.cancelled)] 1 [(2, Fut.pending)] rfl (by decide)

/-- C8: suspension handles are never removed by `notify`/`notify_all`
(every successful `notify` preserves the queue's id sequence, hence its
length and membership); the drain inside `wait` removes exactly the one
entry carrying the waiter's own id — the queue loses that entry, its
length drops by exactly one, and every other entry is untouched in
order; and a whole `wait` call on a well-formed state whose suspension
saw no other-task activity hands the queue back exactly as it found it:
its own handle is enqueued and then drained exactly once, by itself. -/
theorem handle_removed_exactly_once :
    (∀ (c : Condition α) (v : α) (n : Int) c2, c.notify v n = .ok c2 →
      c2.waiters.map Prod.fst = c.waiters.map Prod.fst) ∧
    (∀ (fid : Nat) (f : Fut α) pre post, (∀ q ∈ pre, q.1 ≠ fid) →
      removeId fid (pre ++ (fid, f) :: post) = pre ++ post ∧
      (removeId fid (pre ++ (fid, f) :: post)).length + 1 =
        (pre ++ (fid, f) :: post).length) ∧
    (∀ (c : Condition α) (s : WaitSched α), c.locked = true → c.WF →
      s.env = id → (c.wait s).2.waiters = c.waiters) := by
  refine ⟨?_, ?_, ?_⟩
  · intro c v n c2 h
    rw [Condition.notify] at h
    by_cases hl : c.locked = false
    · rw [if_pos hl] at h
      exact absurd h (by simp)
    · rw [if_neg hl] at h
      simp only [Except.ok.injEq] at h
      subst h
      exact notifyGo_map_fst v n 0 c.waiters
  · intro fid f pre post hpre
    have h := removeId_append f pre post hpre
    refine ⟨h, ?_⟩
    rw [h]
    simp only [List.length_append, List.length_cons]
    omega
  · intro c s hl hwf henv
    rcases s with ⟨env, outcome, k⟩
    have henv2 : env = id := henv
    subst henv2
    have hrem : removeId c.nextId (c.waiters ++ [(c.nextId, Fut.pending)]) =
        c.waiters := by
      have h := @removeId_append α c.nextId Fut.pending c.waiters []
        (fun q hq => Nat.ne_of_lt (hwf q hq))
      simpa using h
    cases outcome with
    | resolved v2 =>
      by_cases hk : 0 < k
      · simp [Condition.wait, hl, hk, hrem]
      · simp [Condition.wait, hl, hk, hrem]
    | cancelled att => simp [Condition.wait, hl, hrem]

theorem handle_removed_exactly_once_witness :
    removeId 1 [(0, Fut.fulfilled (3 : Nat)), (1, Fut.pending), (2, Fut.pending)] =
      [(0, Fut.fulfilled 3)] ++ [(2, Fut.pending)] ∧
    (removeId 1
        [(0, Fut.fulfilled (3 : Nat)), (1, Fut.pending), (2, Fut.pending)]).length + 1 =
      [(0, Fut.fulfilled (3 : Nat)), (1, Fut.pending), (2, Fut.pending)].length :=
  handle_removed_exactly_once.2.1 1 Fut.pending
    [(0, Fut.fulfilled 3)] [(2, Fut.pending)] (by decide)

/-- C6 counterexample: the claim says every `wait_for` call made without
the Mutex held fails with the usage error. But the source evaluates the
predicate before any lock check, so with the lock free and a predicate
that is immediately true, `wait_for` returns true without raising: no
usage error occurs. -/
theorem wait_for_unlocked_no_error :
    (⟨false, [], 0⟩ : Condition Nat).locked = false ∧
    (⟨false, [], 0⟩ : Condition Nat).wait_for 1 (fun _ => true)
      (fun _ => ⟨id, AwaitOutcome.resolved 0, 0⟩) =
      some (.ret true, ⟨false, [], 0⟩) :=
  ⟨rfl, rfl⟩

/-- C6 (amended): a `wait_for` call made without the Mutex held fails
with the usage error exactly when the predicate is initially false — the
error comes from the inner `wait`, and the lock and queue state are left
exactly as before the call; when the predicate is initially true the
call instead returns true immediately, also leaving the state untouched,
despite the Mutex not being held. -/
theorem wait_for_unlocked (c : Condition α) (fuel : Nat) (preds : Nat → Bool)
    (ss : Nat → WaitSched α) (hl : c.locked = false) :
    (preds 0 = false →
      c.wait_for (fuel + 1) preds ss = some (.usageError, c)) ∧
    (preds 0 = true →
      c.wait_for (fuel + 1) preds ss = some (.ret true, c)) := by
  constructor
  · intro hp
    have hw : c.wait (ss 0) = (.usageError, c) := by
      simp [Condition.wait, hl]
    rw [Condition.wait_for, waitForAux, if_neg (by simp [hp]), hw]
  · intro hp
    simp [Condition.wait_for, waitForAux, hp]

theorem wait_for_unlocked_witness :
    (⟨false, [(4, Fut.pending)], 5⟩ : Condition Nat).wait_for 1
      (fun _ => false) (fun _ => ⟨id, AwaitOutcome.resolved 0, 0⟩) =
      some (.usageError, ⟨false, [(4, Fut.pending)], 5⟩) :=
  (wait_for_unlocked ⟨false, [(4, Fut.pending)], 5⟩ 0 (fun _ => false)
    (fun _ => ⟨id, AwaitOutcome.resolved 0, 0⟩) rfl).1 rfl

/-- C7: `wait_for` never returns false — whenever the loop returns a
boolean it is true; with an initially true predicate it returns true
immediately, without waiting, leaving the state unchanged; and a
cancellation error raised by an inner `wait` (here: in the first
iteration, while holding the Mutex) propagates out unswallowed. -/
theorem wait_for_returns_true (preds : Nat → Bool) (ss : Nat → WaitSched α) :
    (∀ (fuel : Nat) (c c2 : Condition α) (i : Nat) (b : Bool),
      waitForAux preds ss fuel c i = some (.ret b, c2) → b = true) ∧
    (∀ (fuel : Nat) (c : Condition α), preds 0 = true →
      c.wait_for (fuel + 1) preds ss = some (.ret true, c)) ∧
    (∀ (fuel : Nat) (c : Condition α) (att : Option α),
      c.locked = true → preds 0 = false → (ss 0).outcome = .cancelled att →
      c.wait_for (fuel + 1) preds ss =
        some (.cancelledError, (c.wait (ss 0)).2)) := by
  refine ⟨?_, ?_, ?_⟩
  · intro fuel
    induction fuel with
    | zero =>
      intro c c2 i b h
      simp [waitForAux] at h
    | succ fuel ih =>
      intro c c2 i b h
      by_cases hp : preds i = true
      · rw [waitForAux, if_pos hp] at h
        simp only [Option.some.injEq, Prod.mk.injEq,
          WaitForResult.ret.injEq] at h
        rw [← h.1]
        exact hp
      · rw [waitForAux, if_neg hp] at h
        split at h
        · exact ih _ c2 (i + 1) b h
        · simp at h
        · simp at h
  · intro fuel c hp
    simp [Condition.wait_for, waitForAux, hp]
  · intro fuel c att hl hp hout
    have hw1 : (c.wait (ss 0)).1 = .cancelledError := by
      simp [Condition.wait, hl, hout]
    rcases hwp : c.wait (ss 0) with ⟨r, c1⟩
    rw [hwp] at hw1
    have hr : r = .cancelledError := hw1
    subst hr
    rw [Condition.wait_for, waitForAux, if_neg (by simp [hp]), hwp]

theorem wait_for_returns_true_witness :
    (⟨true, [], 0⟩ : Condition Nat).wait_for 1 (fun _ => true)
      (fun _ => ⟨id, AwaitOutcome.resolved 0, 0⟩) =
      some (.ret true, ⟨true, [], 0⟩) :=
  (wait_for_returns_true (fun _ => true)
    (fun _ => ⟨id, AwaitOutcome.resolved 0, 0⟩)).2.1 0 ⟨true, [], 0⟩ rfl

end AliceBot
